import Mathlib

/-!
Verification of the L402 challenge-parsing and pay-and-retry core
(`src/index.ts` of `l402-kit`), shallowly embedded in Lean.

Strings are modelled as Lean `String`/`List Char`.  The JavaScript regular
expression `([a-zA-Z0-9_-]+)\s*=\s*("(?:[^"\\]|\\.)*"|[^,;\s]+)` used by
`parseAuthParams` is embedded as a deterministic scanner: for this
particular pattern the backtracking regex engine behaves deterministically
(each character class is disjoint from its successor), so the scanner below
computes exactly the JS `matchAll` semantics.  JavaScript `\s` and `.` are
modelled with their ECMAScript character sets.  `String.prototype.toLowerCase`
is modelled on the ASCII range (all scheme and parameter names handled by the
source are ASCII).
-/

namespace L402

/-- ECMAScript `\s` (WhiteSpace ∪ LineTerminator) as a character predicate. -/
def isJsSpace (c : Char) : Bool :=
  let n := c.toNat
  n = 9 || n = 10 || n = 11 || n = 12 || n = 13 || n = 32 || n = 0xa0 ||
  n = 0x1680 || (0x2000 ≤ n && n ≤ 0x200a) || n = 0x2028 || n = 0x2029 ||
  n = 0x202f || n = 0x205f || n = 0x3000 || n = 0xfeff

/-- ECMAScript LineTerminator characters (what `.` refuses to match). -/
def isLineTerm (c : Char) : Bool :=
  let n := c.toNat
  n = 10 || n = 13 || n = 0x2028 || n = 0x2029

/-- The regex character class `[a-zA-Z0-9_-]` (parameter keys). -/
def isKeyChar (c : Char) : Bool :=
  let n := c.toNat
  (65 ≤ n && n ≤ 90) || (97 ≤ n && n ≤ 122) || (48 ≤ n && n ≤ 57) || n = 95 || n = 45

/-- The regex character class `[^,;\s]` (unquoted token values). -/
def isTokenChar (c : Char) : Bool :=
  !(c.toNat = 44 || c.toNat = 59 || isJsSpace c)

/-- ASCII model of JavaScript `toLowerCase` on a single character. -/
def jsLowerChar (c : Char) : Char :=
  if 65 ≤ c.toNat ∧ c.toNat ≤ 90 then Char.ofNat (c.toNat + 32) else c

/-- `toLowerCase` on a character list. -/
def jsToLowerL (l : List Char) : List Char := l.map jsLowerChar

/-- `String.prototype.trim` on a character list. -/
def jsTrimL (l : List Char) : List Char :=
  ((l.dropWhile isJsSpace).reverse.dropWhile isJsSpace).reverse

/-- `String.prototype.trim` on strings. -/
def jsTrimStr (s : String) : String := ⟨jsTrimL s.toList⟩

/-- `toLowerCase` on strings. -/
def jsToLowerStr (s : String) : String := ⟨jsToLowerL s.toList⟩

/-!  The value scanner for `parseAuthParams`'s regex. -/

/-- Match the body of a quoted string `(?:[^"\\]|\\.)*"` (after the opening
quote): returns the body (escape sequences kept verbatim) and the characters
after the closing quote, or `none` if the quoted alternative fails. -/
def matchQuotedBody : List Char → Option (List Char × List Char)
  | [] => none
  | c :: rest =>
    if c = '"' then some ([], rest)
    else if c = '\\' then
      match rest with
      | [] => none
      | d :: rest2 =>
        if isLineTerm d then none
        else
          match matchQuotedBody rest2 with
          | some (bdy, r) => some (c :: d :: bdy, r)
          | none => none
    else
      match matchQuotedBody rest with
      | some (bdy, r) => some (c :: bdy, r)
      | none => none

/-- Match the token alternative `[^,;\s]+`. -/
def matchToken (cs : List Char) : Option (List Char × List Char) :=
  let t := cs.takeWhile isTokenChar
  if t.isEmpty then none else some (t, cs.dropWhile isTokenChar)

/-- Match the value alternative `("(?:[^"\\]|\\.)*"|[^,;\s]+)`; the quoted
alternative is preferred, falling back to a bare token (exactly the regex
alternation order). -/
def matchValue (cs : List Char) : Option (List Char × List Char) :=
  match cs with
  | c :: rest =>
    if c = '"' then
      match matchQuotedBody rest with
      | some (bdy, r) => some ('"' :: (bdy ++ ['"']), r)
      | none => matchToken cs
    else matchToken cs
  | [] => matchToken cs

/-- Match the whole pattern `([a-zA-Z0-9_-]+)\s*=\s*(value)` anchored at the
head of `cs`; returns (key, raw value, remaining characters). -/
def matchKeyValue (cs : List Char) : Option (List Char × List Char × List Char) :=
  let key := cs.takeWhile isKeyChar
  if key.isEmpty then none
  else
    match (cs.dropWhile isKeyChar).dropWhile isJsSpace with
    | c :: rest3 =>
      if c = '=' then
        match matchValue (rest3.dropWhile isJsSpace) with
        | some (v, rest5) => some (key, v, rest5)
        | none => none
      else none
    | [] => none

/-- One step of `matchAll`: find the leftmost match, scanning forward one
character at a time; fuel bounds the scan (it is always run with the input
length, which suffices since every match consumes at least one character). -/
def findMatchesAux : Nat → List Char → List (List Char × List Char)
  | 0, _ => []
  | fuel + 1, cs =>
    match cs with
    | [] => []
    | c :: rest =>
      match matchKeyValue (c :: rest) with
      | some (k, v, r) => (k, v) :: findMatchesAux fuel r
      | none => findMatchesAux fuel rest

/-- All `key=value` matches of the parameter regex, in text order. -/
def findMatches (cs : List Char) : List (List Char × List Char) :=
  findMatchesAux cs.length cs

/-- `if (v.startsWith('"') && v.endsWith('"') && v.length >= 2) v = v.slice(1, -1)`. -/
def stripQuotesVal (v : List Char) : List Char :=
  if v.head? = some '"' ∧ v.getLast? = some '"' ∧ 2 ≤ v.length then
    (v.drop 1).dropLast
  else v

/-- Per-match processing of `parseAuthParams`: lowercase the (trimmed) key,
trim the raw value and strip one layer of surrounding quotes. -/
def processMatch (kv : List Char × List Char) : String × String :=
  (⟨jsToLowerL (jsTrimL kv.1)⟩, ⟨stripQuotesVal (jsTrimL kv.2)⟩)

/-- One `out[k] = v` assignment step: the `if (!k) continue` guard of the
source is kept verbatim; the assignment is modelled by prepending so that
lookup (which takes the first hit) sees the most recent assignment. -/
def paramStep (out : List (String × String)) (kv : List Char × List Char) :
    List (String × String) :=
  let p := processMatch kv
  if p.1 = "" then out else p :: out

/-- The parameter record built by folding the assignments over all matches:
later matches overwrite earlier ones. -/
def paramsOfMatches (ms : List (List Char × List Char)) : List (String × String) :=
  ms.foldl paramStep []

/-- `parseAuthParams` on a character list. -/
def parseAuthParamsL (cs : List Char) : List (String × String) :=
  paramsOfMatches (findMatches cs)

/-- `parseAuthParams` from `src/index.ts`. -/
def parseAuthParams (s : String) : List (String × String) :=
  parseAuthParamsL s.toList

/-- Property access `params.k` on the parameter record. -/
def lookupParam (m : List (String × String)) (k : String) : Option String :=
  m.lookup k

/-- JavaScript `a || b || ... || undefined` over string-valued reads: the
first operand that is present and non-empty (truthy) wins. -/
def jsOrChain : List (Option String) → Option String
  | [] => none
  | o :: rest =>
    match o with
    | some s => if s = "" then jsOrChain rest else some s
    | none => jsOrChain rest

/-! JSON values, as produced by `JSON.parse` (numbers as integers; no claim
depends on numeric values). -/

inductive JsonValue where
  | null
  | bool (b : Bool)
  | num (n : Int)
  | str (s : String)
  | arr (elems : List JsonValue)
  | obj (fields : List (String × JsonValue))

/-- Property read `v.k` / `v?.[k]`: `undefined` (here `none`) off objects. -/
def jGet : JsonValue → String → Option JsonValue
  | .obj fs, k => fs.lookup k
  | _, _ => none

/-- Optional-chained read `o?.k`. -/
def jGetO (o : Option JsonValue) (k : String) : Option JsonValue :=
  o.bind (fun v => jGet v k)

/-- JavaScript nullish test (`undefined` or `null`). -/
def isNullish : Option JsonValue → Bool
  | none => true
  | some .null => true
  | some _ => false

/-- `!obj || typeof obj !== 'object'` negated: a truthy value of type
`object` (JSON objects and arrays; `null` is excluded by truthiness). -/
def isTruthyObject : JsonValue → Bool
  | .obj _ => true
  | .arr _ => true
  | _ => false

/-- The `??` chain: first non-nullish operand. -/
def jsCoalesce : List (Option JsonValue) → Option JsonValue
  | [] => none
  | o :: rest => if isNullish o then jsCoalesce rest else o

/-- The normalized challenge record (`L402Challenge` in the source). -/
structure L402Challenge where
  invoice : String
  proofHeader : Option String := none
  meta : Option JsonValue := none

/-- Invoice key aliases of `extractInvoiceCandidate`, in source order. -/
def jsonInvoiceAliases : List String :=
  ["invoice", "payreq", "payment_request", "paymentRequest", "paymentrequest",
   "pr", "bolt11", "bolt_11", "bolt-11"]

/-- Proof-header key aliases of `extractProofHeaderHint`, in source order. -/
def jsonProofAliases : List String :=
  ["proofHeader", "proof_header", "proofheader", "proof-header", "header"]

/-- `extractInvoiceCandidate` from `src/index.ts` (argument may be
`undefined`, i.e. `none`). -/
def extractInvoiceCandidate (o : Option JsonValue) : Option String :=
  match o with
  | none => none
  | some v =>
    if !isTruthyObject v then none
    else
      match jsCoalesce (jsonInvoiceAliases.map (jGet v)) with
      | some (.str s) => if jsTrimStr s = "" then none else some s
      | _ => none

/-- `extractProofHeaderHint` from `src/index.ts`. -/
def extractProofHeaderHint (o : Option JsonValue) : Option String :=
  match o with
  | none => none
  | some v =>
    if !isTruthyObject v then none
    else
      match jsCoalesce (jsonProofAliases.map (jGet v)) with
      | some (.str s) => if jsTrimStr s = "" then none else some s
      | _ => none

/-- The ordered invoice candidate objects of `parseJsonChallenge`. -/
def invoiceCandidates (j : JsonValue) : List (Option JsonValue) :=
  [some j, jGet j "l402", jGet j "challenge", jGet j "data", jGet j "details",
   jGet j "result", jGet j "payment", jGet j "error",
   jGetO (jGet j "error") "l402", jGetO (jGet j "error") "data",
   jGetO (jGet j "data") "l402", jGetO (jGet j "data") "challenge"]

/-- The ordered proof-header-hint candidate objects of `parseJsonChallenge`
(note: narrower than the invoice list — no `payment`, no `error.data`). -/
def proofHintCandidates (j : JsonValue) : List (Option JsonValue) :=
  [some j, jGet j "l402", jGet j "challenge", jGet j "data", jGet j "details",
   jGet j "result", jGet j "error",
   jGetO (jGet j "error") "l402",
   jGetO (jGet j "data") "l402", jGetO (jGet j "data") "challenge"]

/-- `typeof x === 'object' && x ? x : undefined` (meta candidates). -/
def metaObjCand (o : Option JsonValue) : Option JsonValue :=
  match o with
  | some v => if isTruthyObject v then some v else none
  | none => none

/-- `parseJsonChallenge` from `src/index.ts`, on the result of `JSON.parse`
(the surrounding `try { JSON.parse ... } catch { return null }` is the
`Option JsonValue` argument of `parseChallengeWith` below). -/
def parseJsonChallengeVal (j : JsonValue) : Option L402Challenge :=
  if !isTruthyObject j then none
  else
    match jsOrChain ((invoiceCandidates j).map extractInvoiceCandidate) with
    | none => none
    | some inv =>
      if jsTrimStr inv = "" then none
      else
        let ph := jsOrChain ((proofHintCandidates j).map extractProofHeaderHint)
        let meta := (metaObjCand (jGet j "meta")).orElse
          (fun _ => metaObjCand (jGetO (jGet j "l402") "meta"))
        some { invoice := inv, proofHeader := ph, meta := meta }

/-! Header-based challenge extraction (`parseWwwAuthenticateL402`). -/

/-- Case-insensitive prefix test against a lowercase target. -/
def startsWithCI (l : List Char) (target : List Char) : Bool :=
  jsToLowerL (l.take target.length) = target

/-- The split lookahead `(?=\s*(?:L402|LSAT)\s)` tested just after a comma. -/
def lookaheadScheme (cs : List Char) : Bool :=
  let r := cs.dropWhile isJsSpace
  (startsWithCI r "l402".toList && ((r.drop 4).head?.any isJsSpace)) ||
  (startsWithCI r "lsat".toList && ((r.drop 4).head?.any isJsSpace))

/-- `h.split(/,(?=\s*(?:L402|LSAT)\s)/i)`: split at commas that start a new
challenge segment. -/
def splitAuthHeader : List Char → List (List Char)
  | [] => [[]]
  | c :: rest =>
    if c = ',' && lookaheadScheme rest then
      [] :: splitAuthHeader rest
    else
      match splitAuthHeader rest with
      | s :: ss => (c :: s) :: ss
      | [] => [[c]]

/-- The comma-after-scheme form `^(L402|LSAT)\s*,\s*(.*)$/i`: on success
returns the lowercased scheme and the trimmed captured rest.  `(.*)$` fails
when a line terminator survives past the greedy `\s*`, in which case the
whole alternative fails and the space-separated form is used instead. -/
def commaSchemeSplit (seg : List Char) : Option (List Char × List Char) :=
  if startsWithCI seg "l402".toList || startsWithCI seg "lsat".toList then
    let r1 := (seg.drop 4).dropWhile isJsSpace
    if r1.head? = some ',' then
      let t := (r1.drop 1).dropWhile isJsSpace
      if t.any isLineTerm then none
      else some (jsToLowerL (jsTrimL (seg.take 4)), jsTrimL t)
    else none
  else none

/-- `scheme.replace(/[^a-z0-9]+$/gi, '')`: strip trailing non-alphanumerics. -/
def stripTrailingNonAlnum (l : List Char) : List Char :=
  (l.reverse.dropWhile (fun c =>
    !((97 ≤ c.toNat && c.toNat ≤ 122) || (65 ≤ c.toNat && c.toNat ≤ 90) ||
      (48 ≤ c.toNat && c.toNat ≤ 57)))).reverse

/-- `rest.replace(/^,\s*/, '')`. -/
def stripLeadingCommaWs (l : List Char) : List Char :=
  if l.head? = some ',' then (l.drop 1).dropWhile isJsSpace else l

/-- Per-segment scheme/parameter-text extraction: the comma-after-scheme form
if it matches, else split at the first space (`seg.indexOf(' ')`). -/
def segmentSchemeRest (seg : List Char) : List Char × List Char :=
  match commaSchemeSplit seg with
  | some sr => sr
  | none =>
    match seg.findIdx? (fun c => c = ' ') with
    | some i =>
      (stripTrailingNonAlnum (jsToLowerL (jsTrimL (seg.take i))),
       stripLeadingCommaWs (jsTrimL (seg.drop (i + 1))))
    | none =>
      (stripTrailingNonAlnum (jsToLowerL (jsTrimL seg)),
       stripLeadingCommaWs (jsTrimL ([] : List Char)))

/-- Invoice parameter aliases of the header path, in source order. -/
def headerInvoiceAliases : List String :=
  ["invoice", "payreq", "payment_request", "paymentrequest", "pr", "bolt11", "bolt-11"]

/-- Proof-header parameter aliases of the header path, in source order. -/
def headerProofAliases : List String :=
  ["proof_header", "proofheader", "proof-header", "header"]

/-- The body of the per-segment loop of `parseWwwAuthenticateL402`, after the
scheme and parameter text have been separated. -/
def schemeParamsChallenge (scheme rest : List Char) : Option L402Challenge :=
  if scheme = "l402".toList ∨ scheme = "lsat".toList then
    let params := parseAuthParamsL rest
    match jsOrChain (headerInvoiceAliases.map (lookupParam params)) with
    | none => none
    | some inv =>
      if jsTrimStr inv = "" then none
      else
        let mac : List (String × JsonValue) :=
          match lookupParam params "macaroon" with
          | some m => if m = "" then [] else [("macaroon", JsonValue.str m)]
          | none => []
        let ph := jsOrChain (headerProofAliases.map (lookupParam params))
        some { invoice := inv, proofHeader := some (ph.getD "authorization"),
               meta := some (JsonValue.obj mac) }
  else none

/-- One segment of the challenge header. -/
def segmentChallenge (seg : List Char) : Option L402Challenge :=
  let sr := segmentSchemeRest seg
  schemeParamsChallenge sr.1 sr.2

/-- The trimmed, non-empty segments of the header value. -/
def headerSegments (h : String) : List (List Char) :=
  ((splitAuthHeader h.toList).map jsTrimL).filter (fun s => !s.isEmpty)

/-- `parseWwwAuthenticateL402` from `src/index.ts`; the argument is
`res.headers.get('www-authenticate')` (`none` when the header is absent). -/
def parseWwwAuthenticateL402 (h? : Option String) : Option L402Challenge :=
  match h? with
  | none => none
  | some h =>
    if h = "" then none
    else (headerSegments h).findSome? segmentChallenge

/-- `parseChallenge` from `src/index.ts`: header challenges take precedence
over body challenges.  `jsonParse` abstracts `JSON.parse` (returning `none`
when parsing throws); no claim constrains its internals. -/
def parseChallengeWith (jsonParse : String → Option JsonValue)
    (wwwAuth : Option String) (bodyText : String) : Option L402Challenge :=
  (parseWwwAuthenticateL402 wwwAuth).orElse
    (fun _ => (jsonParse bodyText).bind parseJsonChallengeVal)

/-! The retry orchestrator `fetchWithL402`.  The HTTP transport is modelled
as a map from call index to outcome; a response exposes its status, its
`www-authenticate` header and a body-read that may fail (`res.text()`);
the pay callback may fail (a rejected promise).  Header sets are modelled
as name-normalized association lists (fetch `Headers` are case-insensitive;
each attempt builds a fresh copy, so in this pure embedding the caller's
header list is trivially never mutated).  Per the WHATWG Fetch standard,
`headers.set(name, value)` throws a `TypeError` when `name` is not a valid
HTTP token or when the whitespace-normalized `value` contains NUL, CR or LF;
since the name comes from the server-supplied proof-header hint, this is a
reachable rejection path of `fetchWithL402` and is modelled explicitly. -/

structure Response where
  status : Nat
  wwwAuthenticate : Option String
  bodyText : Except Unit String

/-- What one transport call receives. -/
structure Request where
  url : String
  method : Option String
  body : Option String
  headers : List (String × String)
deriving DecidableEq

/-- RFC 7230 `tchar` (the characters allowed in an HTTP header name):
`! # $ % & apostrophe * + - . ^ _ backtick | ~`, digits and letters. -/
def isHttpTokenChar (c : Char) : Bool :=
  let n := c.toNat
  n = 33 || (35 ≤ n && n ≤ 39) || n = 42 || n = 43 || n = 45 || n = 46 ||
  (48 ≤ n && n ≤ 57) || (65 ≤ n && n ≤ 90) || (94 ≤ n && n ≤ 96) ||
  (97 ≤ n && n ≤ 122) || n = 124 || n = 126

/-- HTTP whitespace (tab, LF, CR, space) stripped by value normalization. -/
def isHttpWs (c : Char) : Bool :=
  c.toNat = 9 || c.toNat = 10 || c.toNat = 13 || c.toNat = 32

/-- Fetch value normalization: strip leading and trailing HTTP whitespace. -/
def normalizeHeaderValue (v : List Char) : List Char :=
  ((v.dropWhile isHttpWs).reverse.dropWhile isHttpWs).reverse

/-- A valid header name: a non-empty HTTP token. -/
def validHeaderName (n : List Char) : Bool :=
  !n.isEmpty && n.all isHttpTokenChar

/-- A valid header value: no NUL, LF or CR. -/
def validHeaderValue (v : List Char) : Bool :=
  v.all (fun c => !(c.toNat = 0 || c.toNat = 10 || c.toNat = 13))

/-- `headers.set(name, value)` does not throw: the name is a token and the
normalized value is a valid header value. -/
def setHeaderOk (name value : String) : Bool :=
  validHeaderName name.toList && validHeaderValue (normalizeHeaderValue value.toList)

/-- `headers.set(name, value)` on the non-throwing path: case-insensitive
overwrite, storing the normalized value. -/
def setHeader (hs : List (String × String)) (name value : String) :
    List (String × String) :=
  (jsToLowerStr name, (⟨normalizeHeaderValue value.toList⟩ : String)) ::
    hs.filter (fun p => p.1 ≠ jsToLowerStr name)

/-- The ways `fetchWithL402` can reject: missing `pay` option, transport
rejection, pay-callback rejection, and the `TypeError` thrown by
`headers.set` on an invalid proof-header name or proof value. -/
inductive L402Failure (α β : Type) where
  | missingPay
  | transportFailed (e : α)
  | payFailed (e : β)
  | headerSetFailed (name value : String)

/-- A whole run: the transport calls made, the pay invocations made
(in order, including a final failing one), and the outcome. -/
structure RunResult (α β : Type) where
  requests : List Request
  pays : List L402Challenge
  outcome : Except (L402Failure α β) Response

/-- `await res.text().catch(() => '')`. -/
def effBodyText (r : Response) : String :=
  match r.bodyText with
  | .ok t => t
  | .error _ => ""

/-- `String(challenge.proofHeader || defaultProofHeader)`. -/
def effProofHeaderName (ch : L402Challenge) (defHdr : String) : String :=
  match ch.proofHeader with
  | some p => if p = "" then defHdr else p
  | none => defHdr

/-- The retry loop (lines 221–241 of `src/index.ts`), with
`remaining = maxRetries - attempt`; at `remaining = 0` the 402 response is
returned without reading the body, parsing or paying. -/
def fetchLoop {α β : Type} (jsonParse : String → Option JsonValue)
    (tr : Nat → Except α Response) (payFn : L402Challenge → Except β String)
    (defHdr : String) (input : String) (method bodyv : Option String) :
    List (String × String) → Nat → Nat → RunResult α β
  | hdrs, idx, 0 =>
    { requests := [{ url := input, method := method, body := bodyv, headers := hdrs }],
      pays := [],
      outcome :=
        match tr idx with
        | .error e => .error (.transportFailed e)
        | .ok res => .ok res }
  | hdrs, idx, r + 1 =>
    let req : Request := { url := input, method := method, body := bodyv, headers := hdrs }
    match tr idx with
    | .error e => { requests := [req], pays := [], outcome := .error (.transportFailed e) }
    | .ok res =>
      if res.status ≠ 402 then
        { requests := [req], pays := [], outcome := .ok res }
      else
        match parseChallengeWith jsonParse res.wwwAuthenticate (effBodyText res) with
        | none => { requests := [req], pays := [], outcome := .ok res }
        | some ch =>
          match payFn ch with
          | .error e => { requests := [req], pays := [ch], outcome := .error (.payFailed e) }
          | .ok proof =>
            if setHeaderOk (effProofHeaderName ch defHdr) proof then
              let next := fetchLoop jsonParse tr payFn defHdr input method bodyv
                (setHeader hdrs (effProofHeaderName ch defHdr) proof) (idx + 1) r
              { requests := req :: next.requests, pays := ch :: next.pays,
                outcome := next.outcome }
            else
              { requests := [req], pays := [ch],
                outcome := .error (.headerSetFailed (effProofHeaderName ch defHdr) proof) }

/-- The options record (`FetchWithL402Options`); `pay` is optional only so
that the missing-callback configuration error can be expressed. -/
structure L402Options (β : Type) where
  pay : Option (L402Challenge → Except β String)
  proofHeader : Option String := none
  max402Retries : Option Int := none

/-- `Math.max(0, Number(opts.max402Retries ?? 1))` (integer-valued options;
the claims only speak about integer retry counts). -/
def effMaxRetries (m : Option Int) : Nat :=
  (max 0 (m.getD 1)).toNat

/-- `String(opts.proofHeader || 'x-l402-proof')`. -/
def effDefaultHeader (p : Option String) : String :=
  match p with
  | some s => if s = "" then "x-l402-proof" else s
  | none => "x-l402-proof"

/-- `fetchWithL402` from `src/index.ts`. -/
def fetchWithL402 {α β : Type} (jsonParse : String → Option JsonValue)
    (tr : Nat → Except α Response) (input : String) (method bodyv : Option String)
    (initHeaders : List (String × String)) (opts : L402Options β) : RunResult α β :=
  match opts.pay with
  | none => { requests := [], pays := [], outcome := .error .missingPay }
  | some payFn =>
    fetchLoop jsonParse tr payFn (effDefaultHeader opts.proofHeader) input method bodyv
      initHeaders 0 (effMaxRetries opts.max402Retries)

/-! Encoders and well-formedness for round-trip and header-challenge
statements. -/

/-- Escape `"` and `\` with a backslash (the standard quoted-string
encoding named by the spec's round-trip property). -/
def escapeQuotedL : List Char → List Char
  | [] => []
  | c :: r =>
    if c = '"' ∨ c = '\\' then '\\' :: c :: escapeQuotedL r
    else c :: escapeQuotedL r

/-- String-level quoted-string escaping. -/
def escapeQuoted (s : String) : String := ⟨escapeQuotedL s.toList⟩

/-- Encode a value as an unquoted token of a `key=value` pair. -/
def encodeTokenParam (k v : String) : String := k ++ "=" ++ v

/-- Encode a value as a double-quoted, backslash-escaped `key="value"` pair. -/
def encodeQuotedParam (k v : String) : String := k ++ "=\"" ++ escapeQuoted v ++ "\""

/-- Resolve backslash escape sequences (`\x` becomes `x`): the decoding the
spec asserts the parser performs on quoted values. -/
def specUnescapeL : List Char → List Char
  | [] => []
  | c :: r =>
    if c = '\\' then
      match r with
      | [] => []
      | d :: r2 => d :: specUnescapeL r2
    else c :: specUnescapeL r

/-- String-level escape-sequence resolution. -/
def specUnescape (s : String) : String := ⟨specUnescapeL s.toList⟩

/-- A character list is a well-formed quoted-string body: no bare `"`, every
`\` starts a two-character escape whose second character is not a line
terminator (so the regex's `\\.` can match it). -/
def quotedBodyOk : List Char → Bool
  | [] => true
  | c :: rest =>
    if c = '"' then false
    else if c = '\\' then
      match rest with
      | [] => false
      | d :: rest2 => !isLineTerm d && quotedBodyOk rest2
    else quotedBodyOk rest

/-- A single-challenge header value: `SCHEME alias="body"`. -/
def encodeHeaderChallenge (scheme aname b : List Char) : List Char :=
  scheme ++ ' ' :: (aname ++ '=' :: '"' :: (b ++ ['"']))

/-! Spec-side definitions for the JSON invoice search (claim C6): one
transcribing the claim's own words, one transcribing the amended words; both
list the candidate paths and alias order explicitly. -/

/-- First element of an option list that is `some`. -/
def firstHit {A : Type} : List (Option A) → Option A
  | [] => none
  | o :: r =>
    match o with
    | some a => some a
    | none => firstHit r

/-- The candidate sub-objects named by the spec, in its order: top-level,
l402, challenge, data, details, result, payment, error, error.l402,
error.data, data.l402, data.challenge. -/
def specC6Candidates (j : JsonValue) : List (Option JsonValue) :=
  [some j, jGet j "l402", jGet j "challenge", jGet j "data", jGet j "details",
   jGet j "result", jGet j "payment", jGet j "error",
   jGetO (jGet j "error") "l402", jGetO (jGet j "error") "data",
   jGetO (jGet j "data") "l402", jGetO (jGet j "data") "challenge"]

/-- The alias order named by the spec: invoice, payreq, payment_request,
paymentRequest, paymentrequest, pr, bolt11, bolt_11, bolt-11. -/
def specC6Aliases : List String :=
  ["invoice", "payreq", "payment_request", "paymentRequest", "paymentrequest",
   "pr", "bolt11", "bolt_11", "bolt-11"]

/-- Claim C6 as written: within a candidate, the first alias whose value is a
non-empty string wins (aliases holding non-strings or empty strings are
skipped). -/
def specFirstAliasStr (v : JsonValue) : List String → Option String
  | [] => none
  | k :: rest =>
    match jGet v k with
    | some (.str s) => if s ≠ "" then some s else specFirstAliasStr v rest
    | _ => specFirstAliasStr v rest

/-- Claim C6 as written, per candidate. -/
def specC6CandidateOrig (o : Option JsonValue) : Option String :=
  match o with
  | some v => specFirstAliasStr v specC6Aliases
  | none => none

/-- Claim C6 as written, whole search: first candidate (in listed order)
yielding a non-empty string under any alias. -/
def specC6InvoiceOrig (j : JsonValue) : Option String :=
  firstHit ((specC6Candidates j).map specC6CandidateOrig)

/-- Amended C6, per alias list: the first *present and non-nullish* alias
value is selected (later aliases are not consulted even if it is unusable). -/
def specFirstPresent (v : JsonValue) : List String → Option JsonValue
  | [] => none
  | k :: rest =>
    match jGet v k with
    | none => specFirstPresent v rest
    | some .null => specFirstPresent v rest
    | some w => some w

/-- Amended C6, per candidate: the candidate yields an invoice only when it
is a truthy object and its first present alias value is a non-blank string. -/
def specC6CandidateAmended (o : Option JsonValue) : Option String :=
  match o with
  | some v =>
    if isTruthyObject v then
      match specFirstPresent v specC6Aliases with
      | some (.str s) => if jsTrimStr s ≠ "" then some s else none
      | _ => none
    else none
  | none => none

/-- Amended C6, whole search. -/
def specC6InvoiceAmended (j : JsonValue) : Option String :=
  firstHit ((specC6Candidates j).map specC6CandidateAmended)

/-! A small concrete environment used to instantiate the universally
quantified theorems below at closed inputs. -/

/-- A transport that always answers 402 with a JSON invoice body. -/
def wTr402 : Nat → Except Unit Response := fun _ => .ok ⟨402, none, .ok "b"⟩

/-- A transport that always answers 200. -/
def wTr200 : Nat → Except Unit Response := fun _ => .ok ⟨200, none, .ok ""⟩

/-- A body parser that always yields a JSON invoice object. -/
def wJp : String → Option JsonValue := fun _ => some (.obj [("invoice", .str "lnbc1")])

/-- A body parser yielding a JSON challenge whose proof-header hint
`"bad name"` is not a valid HTTP token (it contains a space). -/
def wJpBadHeader : String → Option JsonValue := fun _ =>
  some (.obj [("invoice", .str "x"), ("proofHeader", .str "bad name")])

/-- A pay callback that always succeeds with proof `"paid"`. -/
def wPay : L402Challenge → Except Unit String := fun _ => .ok "paid"

/-- Default options with the always-succeeding pay callback. -/
def wOpts : L402Options Unit := { pay := some wPay }

/-- Options with no pay callback. -/
def wOptsNoPay : L402Options Unit := { pay := none }

/-- Options with a negative retry budget. -/
def wOptsNeg : L402Options Unit := { pay := some wPay, max402Retries := some (-3) }

/-! Lemmas about the retry loop. -/

section LoopLemmas

variable {α β : Type} (jp : String → Option JsonValue) (tr : Nat → Except α Response)
variable (payFn : L402Challenge → Except β String) (defHdr input : String)
variable (method bodyv : Option String)

theorem fetchLoop_bounds :
    ∀ (r : Nat) (hdrs : List (String × String)) (idx : Nat),
      (fetchLoop jp tr payFn defHdr input method bodyv hdrs idx r).pays.length ≤ r ∧
      (fetchLoop jp tr payFn defHdr input method bodyv hdrs idx r).requests.length ≤ r + 1 := by
  intro r
  induction r with
  | zero =>
    intro hdrs idx
    simp [fetchLoop]
  | succ r ih =>
    intro hdrs idx
    simp only [fetchLoop]
    split
    · simp
    · split
      · simp
      · split
        · simp
        · split
          · simp
          · split
            · refine ⟨?_, ?_⟩
              · simpa using Nat.succ_le_succ (ih _ _).1
              · simpa using Nat.succ_le_succ (ih _ _).2
            · refine ⟨by simp, by simp⟩

theorem fetchLoop_outcomes :
    ∀ (r : Nat) (hdrs : List (String × String)) (idx : Nat),
      (∃ res, (fetchLoop jp tr payFn defHdr input method bodyv hdrs idx r).outcome = .ok res) ∨
      (∃ e i, (fetchLoop jp tr payFn defHdr input method bodyv hdrs idx r).outcome =
          .error (.transportFailed e) ∧ tr i = .error e) ∨
      (∃ e ch, (fetchLoop jp tr payFn defHdr input method bodyv hdrs idx r).outcome =
          .error (.payFailed e) ∧ payFn ch = .error e) ∨
      (∃ n v, (fetchLoop jp tr payFn defHdr input method bodyv hdrs idx r).outcome =
          .error (.headerSetFailed n v) ∧ setHeaderOk n v = false) := by
  intro r
  induction r with
  | zero =>
    intro hdrs idx
    cases htr : tr idx with
    | error e => exact Or.inr (Or.inl ⟨e, idx, by simp [fetchLoop, htr], htr⟩)
    | ok res => exact Or.inl ⟨res, by simp [fetchLoop, htr]⟩
  | succ r ih =>
    intro hdrs idx
    simp only [fetchLoop]
    split
    next e heq => exact Or.inr (Or.inl ⟨e, idx, rfl, heq⟩)
    next res heq =>
      split
      next hst => exact Or.inl ⟨res, rfl⟩
      next hst =>
        split
        next hpc => exact Or.inl ⟨res, rfl⟩
        next ch hpc =>
          split
          next e hpay => exact Or.inr (Or.inr (Or.inl ⟨e, ch, rfl, hpay⟩))
          next proof hpay =>
            split
            next hok => simpa using ih _ _
            next hok =>
              exact Or.inr (Or.inr (Or.inr ⟨_, _, rfl, by simpa using hok⟩))

theorem fetchLoop_frame :
    ∀ (r : Nat) (hdrs : List (String × String)) (idx : Nat) (req : Request),
      req ∈ (fetchLoop jp tr payFn defHdr input method bodyv hdrs idx r).requests →
      req.url = input ∧ req.method = method ∧ req.body = bodyv ∧
      ∃ sets : List (String × String),
        req.headers = sets.foldl (fun h p => setHeader h p.1 p.2) hdrs := by
  intro r
  induction r with
  | zero =>
    intro hdrs idx req hmem
    simp only [fetchLoop, List.mem_singleton] at hmem
    subst hmem
    exact ⟨rfl, rfl, rfl, [], rfl⟩
  | succ r ih =>
    intro hdrs idx req hmem
    simp only [fetchLoop] at hmem
    split at hmem
    · simp only [List.mem_singleton] at hmem
      subst hmem
      exact ⟨rfl, rfl, rfl, [], rfl⟩
    · split at hmem
      · simp only [List.mem_singleton] at hmem
        subst hmem
        exact ⟨rfl, rfl, rfl, [], rfl⟩
      · split at hmem
        · simp only [List.mem_singleton] at hmem
          subst hmem
          exact ⟨rfl, rfl, rfl, [], rfl⟩
        · split at hmem
          · simp only [List.mem_singleton] at hmem
            subst hmem
            exact ⟨rfl, rfl, rfl, [], rfl⟩
          · rename_i ch hpc hx proof hpay
            split at hmem
            · simp only [List.mem_cons] at hmem
              rcases hmem with hmem | hmem
              · subst hmem
                exact ⟨rfl, rfl, rfl, [], rfl⟩
              · obtain ⟨h1, h2, h3, sets, hs⟩ := ih _ _ _ hmem
                refine ⟨h1, h2, h3, (effProofHeaderName ch defHdr, proof) :: sets, ?_⟩
                rw [List.foldl_cons]
                exact hs
            · simp only [List.mem_singleton] at hmem
              subst hmem
              exact ⟨rfl, rfl, rfl, [], rfl⟩

theorem fetchLoop_first_request :
    ∀ (r : Nat) (hdrs : List (String × String)) (idx : Nat),
      (fetchLoop jp tr payFn defHdr input method bodyv hdrs idx r).requests.head? =
        some { url := input, method := method, body := bodyv, headers := hdrs } := by
  intro r hdrs idx
  cases r with
  | zero => simp [fetchLoop]
  | succ r =>
    simp only [fetchLoop]
    split
    · simp
    · split
      · simp
      · split
        · simp
        · split
          · simp
          · split
            · simp
            · simp

end LoopLemmas

/-- C1: for every call to `fetchWithL402` whose effective retry budget
(`max402Retries` after defaulting and clamping) is `n`, the pay callback is
invoked at most `n` times and the transport is called at most `n + 1` times
before the call returns or fails. -/
theorem fetchWithL402_retry_bounded {α β : Type} (jp : String → Option JsonValue)
    (tr : Nat → Except α Response) (input : String) (method bodyv : Option String)
    (initHeaders : List (String × String)) (opts : L402Options β) (n : Nat)
    (hn : effMaxRetries opts.max402Retries = n) :
    (fetchWithL402 jp tr input method bodyv initHeaders opts).pays.length ≤ n ∧
    (fetchWithL402 jp tr input method bodyv initHeaders opts).requests.length ≤ n + 1 := by
  subst hn
  unfold fetchWithL402
  cases hp : opts.pay with
  | none => simp
  | some payFn => exact fetchLoop_bounds jp tr payFn _ input method bodyv _ initHeaders 0

/-- Witness for C1 at a concrete run (default options, a transport that
always answers 402 with a JSON challenge body: one pay, two transport calls
are within the bound 1 and 2). -/
theorem fetchWithL402_retry_bounded_witness :
    effMaxRetries wOpts.max402Retries = 1 ∧
    (fetchWithL402 wJp wTr402 "https://x" none none [] wOpts).pays.length ≤ 1 ∧
    (fetchWithL402 wJp wTr402 "https://x" none none [] wOpts).requests.length ≤ 1 + 1 :=
  ⟨by decide, fetchWithL402_retry_bounded wJp wTr402 "https://x" none none [] wOpts 1 (by decide)⟩

/-- C5 (counterexample): the claim's failure enumeration is incomplete.
With `pay` present, a transport that never fails and a pay callback that
never fails, a server body carrying the proof-header hint `"bad name"`
(not a valid HTTP token) makes the run reject via the `TypeError` thrown
by `headers.set` — a fourth failure mode, so the outcome is not a
`Response` even though none of the claim's three error cases occurred. -/
theorem fetchWithL402_failure_modes_cex :
    wOpts.pay = some wPay ∧
    (∀ i e, wTr402 i ≠ .error e) ∧
    (∀ ch e, wPay ch ≠ .error e) ∧
    (∀ res, (fetchWithL402 wJpBadHeader wTr402 "u" none none [] wOpts).outcome ≠
      .ok res) ∧
    (fetchWithL402 wJpBadHeader wTr402 "u" none none [] wOpts).outcome =
      .error (.headerSetFailed "bad name" "paid") := by
  have h : (fetchWithL402 wJpBadHeader wTr402 "u" none none [] wOpts).outcome =
      .error (.headerSetFailed "bad name" "paid") := rfl
  refine ⟨rfl, fun i e he => Except.noConfusion he, fun ch e he => Except.noConfusion he,
    ?_, h⟩
  intro res hres
  rw [h] at hres
  exact Except.noConfusion hres

/-- C5 (amended): `fetchWithL402` fails in exactly four ways — missing
`pay` option (signalled with no transport activity at all), a failing
transport call, a failing pay callback, or the `TypeError` thrown by
`headers.set` on an invalid proof-header name or proof value; every other
path yields a `Response`. -/
theorem fetchWithL402_failure_modes_amended {α β : Type} (jp : String → Option JsonValue)
    (tr : Nat → Except α Response) (input : String) (method bodyv : Option String)
    (initHeaders : List (String × String)) (opts : L402Options β) :
    (opts.pay = none →
      fetchWithL402 jp tr input method bodyv initHeaders opts =
        { requests := [], pays := [], outcome := .error .missingPay }) ∧
    (∀ payFn, opts.pay = some payFn →
      ((∃ res, (fetchWithL402 jp tr input method bodyv initHeaders opts).outcome = .ok res) ∨
       (∃ e i, (fetchWithL402 jp tr input method bodyv initHeaders opts).outcome =
           .error (.transportFailed e) ∧ tr i = .error e) ∨
       (∃ e ch, (fetchWithL402 jp tr input method bodyv initHeaders opts).outcome =
           .error (.payFailed e) ∧ payFn ch = .error e) ∨
       (∃ n v, (fetchWithL402 jp tr input method bodyv initHeaders opts).outcome =
           .error (.headerSetFailed n v) ∧ setHeaderOk n v = false))) := by
  constructor
  · intro hp
    simp [fetchWithL402, hp]
  · intro payFn hp
    simpa [fetchWithL402, hp] using
      fetchLoop_outcomes jp tr payFn (effDefaultHeader opts.proofHeader) input method bodyv
        (effMaxRetries opts.max402Retries) initHeaders 0

/-- Witness for the amended C5: with `pay` absent the configuration error
is returned with an empty transport trace; with `pay` present and a 200
transport the run is classified by the four-way disjunction. -/
theorem fetchWithL402_failure_modes_amended_witness :
    (fetchWithL402 wJp wTr200 "u" none none [] wOptsNoPay =
      { requests := [], pays := [], outcome := .error .missingPay }) ∧
    ((∃ res, (fetchWithL402 wJp wTr200 "u" none none [] wOpts).outcome = .ok res) ∨
     (∃ e i, (fetchWithL402 wJp wTr200 "u" none none [] wOpts).outcome =
         .error (.transportFailed e) ∧ wTr200 i = .error e) ∨
     (∃ e ch, (fetchWithL402 wJp wTr200 "u" none none [] wOpts).outcome =
         .error (.payFailed e) ∧ wPay ch = .error e) ∨
     (∃ n v, (fetchWithL402 wJp wTr200 "u" none none [] wOpts).outcome =
         .error (.headerSetFailed n v) ∧ setHeaderOk n v = false)) :=
  ⟨(fetchWithL402_failure_modes_amended wJp wTr200 "u" none none [] wOptsNoPay).1 rfl,
   (fetchWithL402_failure_modes_amended wJp wTr200 "u" none none [] wOpts).2 wPay rfl⟩

/-- C8: `max402Retries` defaults to 1 when absent, negative values clamp to
0, and with an effective retry budget of 0 the pay callback is never invoked
and the first 402 response is returned as-is after a single transport call. -/
theorem fetchWithL402_zero_retries_passthrough {α β : Type} (jp : String → Option JsonValue)
    (tr : Nat → Except α Response) (input : String) (method bodyv : Option String)
    (initHeaders : List (String × String)) (opts : L402Options β) :
    effMaxRetries none = 1 ∧
    (∀ m : Int, m < 0 → effMaxRetries (some m) = 0) ∧
    (∀ payFn res, opts.pay = some payFn → effMaxRetries opts.max402Retries = 0 →
      tr 0 = .ok res → res.status = 402 →
      fetchWithL402 jp tr input method bodyv initHeaders opts =
        { requests := [{ url := input, method := method, body := bodyv, headers := initHeaders }],
          pays := [], outcome := .ok res }) := by
  refine ⟨by decide, ?_, ?_⟩
  · intro m hm
    unfold effMaxRetries
    simp only [Option.getD_some]
    omega
  · intro payFn res hp h0 htr hst
    simp [fetchWithL402, hp, h0, fetchLoop, htr]

/-- Witness for C8: a concrete run with `max402Retries := -3` (clamped to 0)
against a transport answering 402 returns that response untouched after one
transport call and no pay call. -/
theorem fetchWithL402_zero_retries_passthrough_witness :
    effMaxRetries none = 1 ∧ ((-3 : Int) < 0 ∧ effMaxRetries (some (-3)) = 0) ∧
    (wOptsNeg.pay = some wPay ∧ effMaxRetries wOptsNeg.max402Retries = 0 ∧
      fetchWithL402 wJp wTr402 "u" none none [] wOptsNeg =
        { requests := [{ url := "u", method := none, body := none, headers := [] }],
          pays := [], outcome := .ok ⟨402, none, .ok "b"⟩ }) :=
  ⟨(fetchWithL402_zero_retries_passthrough wJp wTr402 "u" none none [] wOptsNeg).1,
   ⟨by decide,
    (fetchWithL402_zero_retries_passthrough wJp wTr402 "u" none none [] wOptsNeg).2.1
      (-3) (by decide)⟩,
   ⟨rfl, by decide,
    (fetchWithL402_zero_retries_passthrough wJp wTr402 "u" none none [] wOptsNeg).2.2
      wPay ⟨402, none, .ok "b"⟩ rfl (by decide) rfl rfl⟩⟩

/-- C9: every transport call within one `fetchWithL402` run receives the
original URL, method and body; the first attempt carries the caller's
header set unchanged, and every attempt's header set is the caller's plus a
sequence of proof-header `set` overwrites (in this pure embedding each
attempt's set is a fresh value, so the caller's headers are never mutated). -/
theorem fetchWithL402_request_frame {α β : Type} (jp : String → Option JsonValue)
    (tr : Nat → Except α Response) (input : String) (method bodyv : Option String)
    (initHeaders : List (String × String)) (opts : L402Options β) :
    (∀ payFn, opts.pay = some payFn →
      (fetchWithL402 jp tr input method bodyv initHeaders opts).requests.head? =
        some { url := input, method := method, body := bodyv, headers := initHeaders }) ∧
    (∀ req ∈ (fetchWithL402 jp tr input method bodyv initHeaders opts).requests,
      req.url = input ∧ req.method = method ∧ req.body = bodyv ∧
      ∃ sets : List (String × String),
        req.headers = sets.foldl (fun h p => setHeader h p.1 p.2) initHeaders) := by
  constructor
  · intro payFn hp
    simp only [fetchWithL402, hp]
    exact fetchLoop_first_request jp tr payFn _ input method bodyv _ initHeaders 0
  · intro req hmem
    rw [fetchWithL402] at hmem
    cases hp : opts.pay with
    | none => rw [hp] at hmem; simp at hmem
    | some payFn =>
      rw [hp] at hmem
      exact fetchLoop_frame jp tr payFn _ input method bodyv _ initHeaders 0 req hmem

/-- Witness for C9 at a concrete retried run: the first request of the trace
satisfies the frame property. -/
theorem fetchWithL402_request_frame_witness :
    (fetchWithL402 wJp wTr402 "https://x" (some "POST") (some "B") [("a", "1")]
        wOpts).requests.head? =
      some { url := "https://x", method := some "POST", body := some "B", headers := [("a", "1")] } ∧
    ({ url := "https://x", method := some "POST", body := some "B",
       headers := ([("a", "1")] : List (String × String)) } : Request) ∈
      (fetchWithL402 wJp wTr402 "https://x" (some "POST") (some "B") [("a", "1")]
        wOpts).requests ∧
    ∃ sets : List (String × String),
      ({ url := "https://x", method := some "POST", body := some "B",
         headers := ([("a", "1")] : List (String × String)) } : Request).headers =
        sets.foldl (fun h p => setHeader h p.1 p.2) [("a", "1")] :=
  ⟨(fetchWithL402_request_frame wJp wTr402 "https://x" (some "POST") (some "B")
      [("a", "1")] wOpts).1 wPay rfl,
   by decide,
   ((fetchWithL402_request_frame wJp wTr402 "https://x" (some "POST") (some "B")
      [("a", "1")] wOpts).2 _ (by decide)).2.2.2⟩

/-! Character-class facts. -/

theorem isJsSpace_eq_true {c : Char} : isJsSpace c = true ↔
    (c.toNat = 9 ∨ c.toNat = 10 ∨ c.toNat = 11 ∨ c.toNat = 12 ∨ c.toNat = 13 ∨
     c.toNat = 32 ∨ c.toNat = 0xa0 ∨ c.toNat = 0x1680 ∨
     (0x2000 ≤ c.toNat ∧ c.toNat ≤ 0x200a) ∨ c.toNat = 0x2028 ∨ c.toNat = 0x2029 ∨
     c.toNat = 0x202f ∨ c.toNat = 0x205f ∨ c.toNat = 0x3000 ∨ c.toNat = 0xfeff) := by
  simp [isJsSpace, Bool.or_eq_true, Bool.and_eq_true, decide_eq_true_eq, or_assoc]

theorem isKeyChar_eq_true {c : Char} : isKeyChar c = true ↔
    ((65 ≤ c.toNat ∧ c.toNat ≤ 90) ∨ (97 ≤ c.toNat ∧ c.toNat ≤ 122) ∨
     (48 ≤ c.toNat ∧ c.toNat ≤ 57) ∨ c.toNat = 95 ∨ c.toNat = 45) := by
  simp [isKeyChar, Bool.or_eq_true, Bool.and_eq_true, decide_eq_true_eq, or_assoc]

theorem keyChar_not_space {c : Char} (h : isKeyChar c = true) : isJsSpace c = false := by
  rw [isKeyChar_eq_true] at h
  rw [Bool.eq_false_iff, Ne, isJsSpace_eq_true]
  omega

theorem keyChar_ne_comma {c : Char} (h : isKeyChar c = true) : c ≠ ',' := by
  intro e
  subst e
  exact absurd h (by decide)

theorem tokenChar_not_space {c : Char} (h : isTokenChar c = true) : isJsSpace c = false := by
  simp only [isTokenChar, Bool.not_eq_true', Bool.or_eq_false_iff] at h
  exact h.2

theorem keyChar_tokenChar {c : Char} (h : isKeyChar c = true) : isTokenChar c = true := by
  have hs := keyChar_not_space h
  rw [isKeyChar_eq_true] at h
  simp only [isTokenChar, Bool.not_eq_true', Bool.or_eq_false_iff, hs,
    decide_eq_false_iff_not, and_true]
  omega

/-! takeWhile/dropWhile and trim facts. -/

theorem dropWhile_head_neg {p : Char → Bool} {c : Char} {r : List Char} (h : p c = false) :
    (c :: r).dropWhile p = c :: r := by
  rw [List.dropWhile_cons, if_neg (by simp [h])]

theorem dropWhile_all_neg {p : Char → Bool} {l : List Char}
    (h : ∀ c ∈ l, p c = false) : l.dropWhile p = l := by
  cases l with
  | nil => rfl
  | cons c r => exact dropWhile_head_neg (h c (List.mem_cons_self c r))

theorem takeWhile_all_pos {p : Char → Bool} : ∀ {l : List Char},
    (∀ c ∈ l, p c = true) → l.takeWhile p = l
  | [], _ => rfl
  | c :: r, h => by
    rw [List.takeWhile_cons, if_pos (h c (List.mem_cons_self c r)),
      takeWhile_all_pos (fun d hd => h d (List.mem_cons_of_mem c hd))]

theorem dropWhile_all_pos {p : Char → Bool} : ∀ {l : List Char},
    (∀ c ∈ l, p c = true) → l.dropWhile p = []
  | [], _ => rfl
  | c :: r, h => by
    rw [List.dropWhile_cons, if_pos (h c (List.mem_cons_self c r))]
    exact dropWhile_all_pos (fun d hd => h d (List.mem_cons_of_mem c hd))

theorem takeWhile_append_head {p : Char → Bool} {l r : List Char}
    (hl : ∀ c ∈ l, p c = true) (hr : ∀ c, r.head? = some c → p c = false) :
    (l ++ r).takeWhile p = l ∧ (l ++ r).dropWhile p = r := by
  induction l with
  | nil =>
    simp only [List.nil_append]
    cases r with
    | nil => exact ⟨rfl, rfl⟩
    | cons c rr =>
      refine ⟨?_, dropWhile_head_neg (hr c rfl)⟩
      rw [List.takeWhile_cons, if_neg (by simp [hr c rfl])]
  | cons a l ih =>
    have ha : p a = true := hl a (List.mem_cons_self a l)
    have ihh := ih (fun c hc => hl c (List.mem_cons_of_mem a hc))
    constructor
    · rw [List.cons_append, List.takeWhile_cons, if_pos ha, ihh.1]
    · rw [List.cons_append, List.dropWhile_cons, if_pos ha, ihh.2]

theorem dropWhile_head_all {p : Char → Bool} {l : List Char}
    (h : ∀ c, l.head? = some c → p c = false) : l.dropWhile p = l := by
  cases l with
  | nil => rfl
  | cons c r => exact dropWhile_head_neg (h c rfl)

theorem jsTrimL_eq_self {l : List Char}
    (h1 : ∀ c, l.head? = some c → isJsSpace c = false)
    (h2 : ∀ c, l.getLast? = some c → isJsSpace c = false) : jsTrimL l = l := by
  unfold jsTrimL
  rw [dropWhile_head_all h1,
    dropWhile_head_all (fun c hc => h2 c (by rwa [List.head?_reverse] at hc)),
    List.reverse_reverse]

theorem jsTrimL_all {l : List Char} (h : ∀ c ∈ l, isJsSpace c = false) : jsTrimL l = l := by
  unfold jsTrimL
  rw [dropWhile_all_neg h, dropWhile_all_neg (by simpa using h), List.reverse_reverse]

theorem mkStr_ne_empty {l : List Char} (h : l ≠ []) : (⟨l⟩ : String) ≠ "" := by
  intro e
  exact h (congrArg String.data e)

/-! Quoted-string matching facts. -/

theorem matchQuotedBody_ok : ∀ (b : List Char), quotedBodyOk b = true →
    ∀ (t : List Char), matchQuotedBody (b ++ '"' :: t) = some (b, t)
  | [], _, t => by
    rw [List.nil_append, matchQuotedBody.eq_def]
    simp
  | c :: rest, h, t => by
    rw [quotedBodyOk.eq_def] at h
    by_cases hq : c = '"'
    · simp [hq] at h
    · by_cases hb : c = '\\'
      · subst hb
        cases rest with
        | nil => simp at h
        | cons d rest2 =>
          simp at h
          have ih := matchQuotedBody_ok rest2 h.2 t
          rw [List.cons_append, List.cons_append, matchQuotedBody.eq_def]
          simp [hq, h.1, ih]
      · simp only [if_neg hq, if_neg hb] at h
        have ih := matchQuotedBody_ok rest h t
        rw [List.cons_append, matchQuotedBody.eq_def]
        simp [hq, hb, ih]

theorem escapeQuotedL_id : ∀ {l : List Char}, (∀ c ∈ l, c ≠ '"' ∧ c ≠ '\\') →
    escapeQuotedL l = l
  | [], _ => rfl
  | c :: r, h => by
    have hc := h c (List.mem_cons_self c r)
    rw [escapeQuotedL, if_neg (by simp [hc.1, hc.2]),
      escapeQuotedL_id (fun d hd => h d (List.mem_cons_of_mem c hd))]

theorem quotedBodyOk_plain : ∀ {l : List Char}, (∀ c ∈ l, c ≠ '"' ∧ c ≠ '\\') →
    quotedBodyOk l = true
  | [], _ => rfl
  | c :: r, h => by
    have hc := h c (List.mem_cons_self c r)
    rw [quotedBodyOk.eq_def]
    simp only [if_neg hc.1, if_neg hc.2]
    exact quotedBodyOk_plain (fun d hd => h d (List.mem_cons_of_mem c hd))

/-! Anchored-match facts for encoded `key=value` texts. -/

theorem matchToken_all {v : List Char} (hne : v ≠ [])
    (hv : ∀ c ∈ v, isTokenChar c = true) : matchToken v = some (v, []) := by
  unfold matchToken
  rw [takeWhile_all_pos hv, dropWhile_all_pos hv]
  cases v with
  | nil => exact absurd rfl hne
  | cons c r => rfl

theorem matchValue_token {v : List Char} (hne : v ≠ [])
    (hv : ∀ c ∈ v, isTokenChar c = true)
    (hq : ∀ c, v.head? = some c → c ≠ '"') : matchValue v = some (v, []) := by
  cases v with
  | nil => exact absurd rfl hne
  | cons c r =>
    rw [matchValue, if_neg (hq c rfl)]
    exact matchToken_all hne hv

theorem matchValue_quoted {b : List Char} (hb : quotedBodyOk b = true) :
    matchValue ('"' :: (b ++ ['"'])) = some ('"' :: (b ++ ['"']), []) := by
  rw [matchValue, if_pos rfl]
  have : b ++ ['"'] = b ++ '"' :: [] := rfl
  rw [this, matchQuotedBody_ok b hb []]

theorem matchKeyValue_encoded {key rest : List Char} {v r : List Char}
    (hk : key ≠ []) (hkc : ∀ c ∈ key, isKeyChar c = true)
    (hheadws : ∀ c, rest.head? = some c → isJsSpace c = false)
    (hmv : matchValue rest = some (v, r)) :
    matchKeyValue (key ++ '=' :: rest) = some (key, v, r) := by
  have hsplit := takeWhile_append_head (p := isKeyChar) (l := key) (r := '=' :: rest)
    hkc (fun c hc => by cases hc; decide)
  have hke : key.isEmpty = false := by
    cases key with
    | nil => exact absurd rfl hk
    | cons c r2 => rfl
  simp only [matchKeyValue]
  rw [hsplit.1, hsplit.2, hke]
  rw [dropWhile_head_neg (p := isJsSpace) (by decide)]
  simp [dropWhile_head_all hheadws, hmv]

theorem findMatchesAux_nil : ∀ (fuel : Nat), findMatchesAux fuel [] = []
  | 0 => rfl
  | _ + 1 => rfl

theorem findMatches_single {cs k v : List Char}
    (h : matchKeyValue cs = some (k, v, [])) : findMatches cs = [(k, v)] := by
  unfold findMatches
  cases cs with
  | nil =>
    rw [matchKeyValue] at h
    simp at h
  | cons c rest =>
    simp only [List.length_cons, findMatchesAux, h, findMatchesAux_nil]

/-! Evaluated forms of `processMatch` on encoded matches. -/

theorem processMatch_token {k v : List Char} (hkc : ∀ c ∈ k, isKeyChar c = true)
    (hvc : ∀ c ∈ v, isTokenChar c = true) (hq : ∀ c, v.head? = some c → c ≠ '"') :
    processMatch (k, v) = (⟨jsToLowerL k⟩, ⟨v⟩) := by
  unfold processMatch
  rw [jsTrimL_all (fun c hc => keyChar_not_space (hkc c hc))]
  rw [jsTrimL_all (fun c hc => tokenChar_not_space (hvc c hc))]
  rw [stripQuotesVal, if_neg (fun hcond => (hq '"' hcond.1) rfl)]

theorem processMatch_quoted {k b : List Char} (hkc : ∀ c ∈ k, isKeyChar c = true) :
    processMatch (k, '"' :: (b ++ ['"'])) = (⟨jsToLowerL k⟩, ⟨b⟩) := by
  unfold processMatch
  rw [jsTrimL_all (fun c hc => keyChar_not_space (hkc c hc))]
  have hlast : ('"' :: (b ++ ['"'])).getLast? = some '"' := by
    rw [← List.cons_append, List.getLast?_concat]
  have htrim : jsTrimL ('"' :: (b ++ ['"'])) = '"' :: (b ++ ['"']) := by
    apply jsTrimL_eq_self
    · intro c hc
      cases hc
      decide
    · intro c hc
      rw [hlast] at hc
      cases hc
      decide
  rw [htrim, stripQuotesVal, if_pos ⟨rfl, hlast, by simp⟩]
  simp

theorem parseAuthParamsL_single {cs key raw : List Char}
    (h : matchKeyValue cs = some (key, raw, []))
    (hkey : (processMatch (key, raw)).1 ≠ "") :
    parseAuthParamsL cs = [processMatch (key, raw)] := by
  unfold parseAuthParamsL
  rw [findMatches_single h]
  simp [paramsOfMatches, paramStep, hkey]

/-! Shape of the keys produced by the match scan. -/

theorem matchKeyValue_key_facts {cs k v r : List Char}
    (h : matchKeyValue cs = some (k, v, r)) :
    k ≠ [] ∧ ∀ c ∈ k, isKeyChar c = true := by
  simp only [matchKeyValue] at h
  split at h
  · exact absurd h (by simp)
  · rename_i hke
    split at h
    · split at h
      · split at h
        · rename_i hmv
          simp only [Option.some.injEq, Prod.mk.injEq] at h
          obtain ⟨h1, h2, h3⟩ := h
          subst h1
          refine ⟨?_, fun c hc => List.mem_takeWhile_imp hc⟩
          simpa [List.isEmpty_eq_true] using hke
        · exact absurd h (by simp)
      · exact absurd h (by simp)
    · exact absurd h (by simp)

theorem findMatchesAux_keys : ∀ (fuel : Nat) (cs : List Char),
    ∀ kv ∈ findMatchesAux fuel cs, kv.1 ≠ [] ∧ ∀ c ∈ kv.1, isKeyChar c = true := by
  intro fuel
  induction fuel with
  | zero => intro cs kv h; simp [findMatchesAux] at h
  | succ f ih =>
    intro cs kv h
    cases cs with
    | nil => simp [findMatchesAux] at h
    | cons c rest =>
      simp only [findMatchesAux] at h
      split at h
      · rename_i k' v' r' hm
        rcases List.mem_cons.mp h with h | h
        · subst h
          exact matchKeyValue_key_facts hm
        · exact ih r' kv h
      · exact ih rest kv h

theorem processMatch_key_ne {kv : List Char × List Char} (hk : kv.1 ≠ [])
    (hkc : ∀ c ∈ kv.1, isKeyChar c = true) : (processMatch kv).1 ≠ "" := by
  unfold processMatch
  apply mkStr_ne_empty
  rw [jsTrimL_all (fun c hc => keyChar_not_space (hkc c hc))]
  simpa [jsToLowerL] using hk

/-! Folding the assignments is reversing the processed match list (keys are
never empty, so the `continue` guard never fires). -/

theorem foldl_paramStep : ∀ (ms : List (List Char × List Char)),
    (∀ kv ∈ ms, (processMatch kv).1 ≠ "") → ∀ acc,
    ms.foldl paramStep acc = (ms.map processMatch).reverse ++ acc
  | [], _, acc => by simp
  | kv :: ms, h, acc => by
    rw [List.foldl_cons]
    have hne := h kv (List.mem_cons_self kv ms)
    have hstep : paramStep acc kv = processMatch kv :: acc := by
      simp [paramStep, hne]
    rw [hstep, foldl_paramStep ms (fun x hx => h x (List.mem_cons_of_mem kv hx))]
    simp

theorem paramsOfMatches_eq_reverse {ms : List (List Char × List Char)}
    (h : ∀ kv ∈ ms, (processMatch kv).1 ≠ "") :
    paramsOfMatches ms = (ms.map processMatch).reverse := by
  unfold paramsOfMatches
  rw [foldl_paramStep ms h []]
  simp

/-! Looking a key up in the reversed list selects the last occurrence. -/

theorem lookup_append_str (k : String) : ∀ (xs ys : List (String × String)),
    (xs ++ ys).lookup k = ((xs.lookup k).orElse (fun _ => ys.lookup k))
  | [], ys => by simp
  | (a, b) :: xs, ys => by
    simp only [List.cons_append, List.lookup_cons]
    cases hk : k == a
    · simpa using lookup_append_str k xs ys
    · simp

theorem lookup_reverse_getLast (k : String) : ∀ (l : List (String × String)),
    l.reverse.lookup k = ((l.filter (fun p => p.1 == k)).getLast?).map Prod.snd
  | [] => by simp
  | (a, b) :: l => by
    rw [List.reverse_cons, lookup_append_str k l.reverse [(a, b)],
      lookup_reverse_getLast k l, List.filter_cons]
    by_cases hk : a = k
    · subst hk
      rw [if_pos (by simp)]
      cases hfl : l.filter (fun p => p.1 == a) with
      | nil => simp [List.lookup_cons]
      | cons x xs =>
        rw [List.getLast?_cons_cons]
        obtain ⟨y, hy⟩ : ∃ y, (x :: xs).getLast? = some y :=
          ⟨(x :: xs).getLast (by simp), List.getLast?_eq_getLast _ _⟩
        rw [hy]
        rfl
    · have hbk : (a == k) = false := by simpa using hk
      have hkb : (k == a) = false := by simpa using (fun e => hk e.symm)
      rw [if_neg (by simp [hbk])]
      have hl1 : List.lookup k [(a, b)] = none := by simp [List.lookup_cons, hkb]
      simp only [hl1]
      cases (l.filter (fun p => p.1 == k)).getLast? <;> rfl

/-- C10: within one challenge segment, when the same (lowercased) parameter
key occurs in several `key=value` matches, the value the parameter record
reports is the one of the last occurrence in text order. -/
theorem parseAuthParams_last_occurrence_wins (s k : String) :
    lookupParam (parseAuthParams s) k =
      (((findMatches s.toList).map processMatch).filter
        (fun p => p.1 == k)).getLast?.map Prod.snd := by
  unfold parseAuthParams parseAuthParamsL lookupParam
  have h : ∀ kv ∈ findMatches s.toList, (processMatch kv).1 ≠ "" := by
    intro kv hm
    obtain ⟨h1, h2⟩ := findMatchesAux_keys s.toList.length s.toList kv hm
    exact processMatch_key_ne h1 h2
  rw [paramsOfMatches_eq_reverse h, lookup_reverse_getLast]

/-! Round-trip facts for encoded parameters (claim C4). -/

theorem head?_mem {c : Char} : ∀ {l : List Char}, l.head? = some c → c ∈ l
  | a :: r, h => by
    injection h with h
    subst h
    exact List.mem_cons_self a r

theorem encodeTokenParam_toList (v : String) :
    (encodeTokenParam "k" v).toList = 'k' :: '=' :: v.toList := by
  simp [encodeTokenParam, String.toList, String.data_append]

theorem encodeQuotedParam_toList (v : String) :
    (encodeQuotedParam "k" v).toList =
      'k' :: '=' :: '"' :: (escapeQuotedL v.toList ++ ['"']) := by
  simp [encodeQuotedParam, escapeQuoted, String.toList, String.data_append]

theorem toList_ne_nil {v : String} (h : v ≠ "") : v.toList ≠ [] := by
  intro e
  apply h
  cases v with
  | mk d => simpa [String.toList] using congrArg String.mk e

/-- C4 counterexample: the claim fails as stated.  Encoding the empty string
as an unquoted token produces `k=`, which the parser does not match at all;
and encoding the one-character string `\\` quoted produces `k="\\\\"`, which
parses back to the two-character string `\\\\` because the parser strips the
quotes but never resolves backslash escapes. -/
theorem parseAuthParams_roundtrip_cex :
    lookupParam (parseAuthParams (encodeTokenParam "k" "")) "k" = none ∧
    lookupParam (parseAuthParams (encodeQuotedParam "k" "\\")) "k" = some "\\\\" ∧
    ("\\\\" : String) ≠ "\\" := by
  refine ⟨by decide, by decide, by decide⟩

/-- C4 (amended): for every non-empty string with no `"`, `,`, `;` or
whitespace, unquoted-token round-trip holds; quoted round-trip holds exactly
up to escaping — parsing returns the quoted text with only the surrounding
quotes removed, so it restores the original for strings with no `"` or `\\`
(where escaping is the identity). -/
theorem parseAuthParams_roundtrip_amended (v : String) :
    (v ≠ "" → (∀ c ∈ v.toList, isTokenChar c = true ∧ c ≠ '"') →
      lookupParam (parseAuthParams (encodeTokenParam "k" v)) "k" = some v) ∧
    ((∀ c ∈ v.toList, c ≠ '"' ∧ c ≠ '\\') →
      lookupParam (parseAuthParams (encodeQuotedParam "k" v)) "k" = some v) := by
  constructor
  · intro hne hv
    unfold parseAuthParams
    rw [encodeTokenParam_toList]
    have hkv : matchKeyValue (['k'] ++ '=' :: v.toList) = some (['k'], v.toList, []) := by
      apply matchKeyValue_encoded (by simp) (by decide)
        (fun c hc => tokenChar_not_space (hv c (head?_mem hc)).1)
      exact matchValue_token (toList_ne_nil hne) (fun c hc => (hv c hc).1)
        (fun c hc => (hv c (head?_mem hc)).2)
    rw [show ('k' :: '=' :: v.toList) = (['k'] ++ '=' :: v.toList) from rfl]
    have hpm : processMatch (['k'], v.toList) = ("k", v) :=
      processMatch_token (by decide) (fun c hc => (hv c hc).1)
        (fun c hc => (hv c (head?_mem hc)).2)
    rw [parseAuthParamsL_single hkv (by rw [hpm]; exact (by decide : ("k" : String) ≠ "")), hpm]
    rfl
  · intro hv
    unfold parseAuthParams
    rw [encodeQuotedParam_toList, escapeQuotedL_id hv]
    have hkv : matchKeyValue (['k'] ++ '=' :: '"' :: (v.toList ++ ['"'])) =
        some (['k'], '"' :: (v.toList ++ ['"']), []) := by
      apply matchKeyValue_encoded (by simp) (by decide) (fun c hc => by
        injection hc with hc
        subst hc
        decide)
      exact matchValue_quoted (quotedBodyOk_plain hv)
    rw [show ('k' :: '=' :: '"' :: (v.toList ++ ['"'])) =
      (['k'] ++ '=' :: '"' :: (v.toList ++ ['"'])) from rfl]
    have hpm : processMatch (['k'], '"' :: (v.toList ++ ['"'])) = ("k", v) :=
      processMatch_quoted (by decide)
    rw [parseAuthParamsL_single hkv (by rw [hpm]; exact (by decide : ("k" : String) ≠ "")), hpm]
    rfl

/-- Witness for the amended C4 at `v := "lnbc1"` (token form) and
`v := "a b"` (quoted form, value containing a space). -/
theorem parseAuthParams_roundtrip_amended_witness :
    (("lnbc1" : String) ≠ "" ∧
      lookupParam (parseAuthParams (encodeTokenParam "k" "lnbc1")) "k" = some "lnbc1") ∧
    lookupParam (parseAuthParams (encodeQuotedParam "k" "a b")) "k" = some "a b" :=
  ⟨⟨by decide,
    (parseAuthParams_roundtrip_amended "lnbc1").1 (by decide) (by decide)⟩,
   (parseAuthParams_roundtrip_amended "a b").2 (by decide)⟩


/-- C7: when a response carries both a header challenge and a JSON body
challenge that each yield an invoice, `parseChallenge` returns the
header-derived challenge — the header extractor is tried first and its
successful result takes precedence. -/
theorem parseChallenge_header_precedence (jp : String → Option JsonValue)
    (h : Option String) (txt : String) (ch ch2 : L402Challenge)
    (hh : parseWwwAuthenticateL402 h = some ch)
    (_hb : (jp txt).bind parseJsonChallengeVal = some ch2) :
    parseChallengeWith jp h txt = some ch := by
  rw [parseChallengeWith, hh]
  rfl

/-- Witness for C7: header `L402 invoice=lnh` wins over a body that parses to
a JSON challenge with invoice `lnb`. -/
theorem parseChallenge_header_precedence_witness :
    parseWwwAuthenticateL402 (some "L402 invoice=lnh") =
      some { invoice := "lnh", proofHeader := some "authorization",
             meta := some (JsonValue.obj []) } ∧
    (wJp "b").bind parseJsonChallengeVal =
      some { invoice := "lnbc1", proofHeader := none, meta := none } ∧
    parseChallengeWith wJp (some "L402 invoice=lnh") "b" =
      some { invoice := "lnh", proofHeader := some "authorization",
             meta := some (JsonValue.obj []) } :=
  ⟨rfl, rfl,
   parseChallenge_header_precedence wJp (some "L402 invoice=lnh") "b" _ _ rfl rfl⟩

/-! All-none chain facts (claim C3). -/

theorem jsOrChain_all_none : ∀ {l : List (Option String)},
    (∀ o ∈ l, o = none) → jsOrChain l = none
  | [], _ => rfl
  | o :: rest, h => by
    have ho := h o (List.mem_cons_self o rest)
    subst ho
    show jsOrChain rest = none
    exact jsOrChain_all_none (fun x hx => h x (List.mem_cons_of_mem none hx))

theorem jsCoalesce_all_none : ∀ {l : List (Option JsonValue)},
    (∀ o ∈ l, o = none) → jsCoalesce l = none
  | [], _ => rfl
  | o :: rest, h => by
    have ho := h o (List.mem_cons_self o rest)
    subst ho
    show jsCoalesce rest = none
    exact jsCoalesce_all_none (fun x hx => h x (List.mem_cons_of_mem none hx))

theorem findSome?_mem {A B : Type} {f : A → Option B} :
    ∀ {l : List A} {b : B}, l.findSome? f = some b → ∃ a ∈ l, f a = some b
  | a :: l, b, h => by
    rw [List.findSome?_cons] at h
    cases hf : f a with
    | some c =>
      rw [hf] at h
      injection h with h
      subst h
      exact ⟨a, List.mem_cons_self a l, hf⟩
    | none =>
      rw [hf] at h
      obtain ⟨x, hx, hfx⟩ := findSome?_mem h
      exact ⟨x, List.mem_cons_of_mem a hx, hfx⟩

theorem extractProofHeaderHint_none {o : Option JsonValue}
    (h : ∀ a ∈ jsonProofAliases, jGetO o a = none) :
    extractProofHeaderHint o = none := by
  cases o with
  | none => rfl
  | some v =>
    rw [extractProofHeaderHint]
    have hc : jsCoalesce (jsonProofAliases.map (jGet v)) = none := by
      apply jsCoalesce_all_none
      intro x hx
      obtain ⟨a, ha, he⟩ := List.mem_map.mp hx
      rw [← he]
      exact h a ha
    rw [hc]
    split <;> rfl

/-- C3: a header challenge that yields an invoice but names none of the
proof-header parameter aliases gets the default hint `authorization`; a JSON
body challenge that yields an invoice but has no proof-header alias in any
candidate object gets no hint at all (absent, not defaulted). -/
theorem proofHeader_default_rules :
    (∀ (h : String) (ch : L402Challenge),
      (∀ seg ∈ headerSegments h, ∀ a ∈ headerProofAliases,
        lookupParam (parseAuthParamsL (segmentSchemeRest seg).2) a = none) →
      parseWwwAuthenticateL402 (some h) = some ch →
      ch.proofHeader = some "authorization") ∧
    (∀ (j : JsonValue) (ch : L402Challenge),
      (∀ o ∈ proofHintCandidates j, ∀ a ∈ jsonProofAliases, jGetO o a = none) →
      parseJsonChallengeVal j = some ch →
      ch.proofHeader = none) := by
  constructor
  · intro h ch hno hp
    rw [parseWwwAuthenticateL402] at hp
    split at hp
    · exact absurd hp (by simp)
    · obtain ⟨seg, hseg, hch⟩ := findSome?_mem hp
      simp only [segmentChallenge, schemeParamsChallenge] at hch
      split at hch
      · split at hch
        · exact absurd hch (by simp)
        · rename_i inv hinv
          split at hch
          · exact absurd hch (by simp)
          · have hph : jsOrChain (headerProofAliases.map
                (lookupParam (parseAuthParamsL (segmentSchemeRest seg).2))) = none := by
              apply jsOrChain_all_none
              intro x hx
              obtain ⟨a, ha, he⟩ := List.mem_map.mp hx
              rw [← he]
              exact hno seg hseg a ha
            rw [hph] at hch
            injection hch with hch
            subst hch
            rfl
      · exact absurd hch (by simp)
  · intro j ch hno hp
    simp only [parseJsonChallengeVal] at hp
    split at hp
    · exact absurd hp (by simp)
    · split at hp
      · exact absurd hp (by simp)
      · rename_i inv hinv
        split at hp
        · exact absurd hp (by simp)
        · have hph : jsOrChain ((proofHintCandidates j).map extractProofHeaderHint) = none := by
            apply jsOrChain_all_none
            intro x hx
            obtain ⟨o, ho, he⟩ := List.mem_map.mp hx
            rw [← he]
            exact extractProofHeaderHint_none (hno o ho)
          rw [hph] at hp
          injection hp with hp
          subst hp
          rfl

/-- Witness for C3: header `LSAT invoice=lnh` (no hint aliases) defaults to
`authorization`; body `{"invoice": "lnb"}` (no hint aliases anywhere) leaves
the hint absent. -/
theorem proofHeader_default_rules_witness :
    (parseWwwAuthenticateL402 (some "LSAT invoice=lnh") =
      some { invoice := "lnh", proofHeader := some "authorization",
             meta := some (JsonValue.obj []) } ∧
     ({ invoice := "lnh", proofHeader := some "authorization",
        meta := some (JsonValue.obj []) } : L402Challenge).proofHeader =
       some "authorization") ∧
    (parseJsonChallengeVal (JsonValue.obj [("invoice", JsonValue.str "lnb")]) =
      some { invoice := "lnb", proofHeader := none, meta := none } ∧
     ({ invoice := "lnb", proofHeader := none, meta := none } : L402Challenge).proofHeader =
       none) :=
  ⟨⟨rfl, proofHeader_default_rules.1 "LSAT invoice=lnh" _ (by decide) rfl⟩,
   ⟨rfl, proofHeader_default_rules.2 (JsonValue.obj [("invoice", JsonValue.str "lnb")]) _
      (by intro o ho a ha
          have hc : proofHintCandidates (JsonValue.obj [("invoice", JsonValue.str "lnb")]) =
              [some (JsonValue.obj [("invoice", JsonValue.str "lnb")]), none, none, none,
               none, none, none, none, none, none] := rfl
          rw [hc] at ho
          fin_cases ho <;> fin_cases ha <;> rfl) rfl⟩⟩


/-! Equivalence of the code's invoice search with the amended specification
(claim C6). -/

theorem isNullish_none : isNullish none = true := rfl

theorem jsCoalesce_firstPresent (v : JsonValue) : ∀ (keys : List String),
    jsCoalesce (keys.map (jGet v)) = specFirstPresent v keys
  | [] => rfl
  | k :: rest => by
    rw [List.map_cons, specFirstPresent]
    cases hj : jGet v k with
    | none => exact jsCoalesce_firstPresent v rest
    | some w =>
      cases w with
      | null => exact jsCoalesce_firstPresent v rest
      | bool b => rfl
      | num n => rfl
      | str s2 => rfl
      | arr xs => rfl
      | obj fs => rfl

theorem extractInvoiceCandidate_eq_spec (o : Option JsonValue) :
    extractInvoiceCandidate o = specC6CandidateAmended o := by
  cases o with
  | none => rfl
  | some v =>
    rw [extractInvoiceCandidate, specC6CandidateAmended]
    rw [show jsonInvoiceAliases = specC6Aliases from rfl, jsCoalesce_firstPresent v specC6Aliases]
    by_cases ht : isTruthyObject v = true
    · rw [if_neg (by simp [ht]), if_pos ht]
      cases hf : specFirstPresent v specC6Aliases with
      | none => rfl
      | some w =>
        cases w with
        | str s2 =>
          show (if jsTrimStr s2 = "" then none else some s2) =
            (if jsTrimStr s2 ≠ "" then some s2 else none)
          by_cases hs : jsTrimStr s2 = ""
          · rw [if_pos hs, if_neg (by simpa using hs)]
          · rw [if_neg hs, if_pos hs]
        | null => rfl
        | bool b => rfl
        | num n => rfl
        | arr xs => rfl
        | obj fs => rfl
    · have ht2 : isTruthyObject v = false := by simpa using ht
      rw [if_pos (by simp [ht2]), if_neg ht]

theorem extractInvoiceCandidate_ne_empty {o : Option JsonValue} {s : String}
    (h : extractInvoiceCandidate o = some s) : jsTrimStr s ≠ "" ∧ s ≠ "" := by
  have htrim : jsTrimStr s ≠ "" := by
    cases o with
    | none => exact absurd h (by simp [extractInvoiceCandidate])
    | some v =>
      rw [extractInvoiceCandidate] at h
      split at h
      · exact absurd h (by simp)
      · split at h
        · rename_i s2 hs2arm
          split at h
          · exact absurd h (by simp)
          · rename_i hs2
            injection h with h
            subst h
            exact hs2
        · exact absurd h (by simp)
  refine ⟨htrim, fun e => htrim ?_⟩
  rw [e]
  rfl

theorem jsOrChain_eq_firstHit : ∀ {l : List (Option String)},
    (∀ s, some s ∈ l → s ≠ "") → jsOrChain l = firstHit l
  | [], _ => rfl
  | none :: rest, h => by
    show jsOrChain rest = firstHit rest
    exact jsOrChain_eq_firstHit (fun s hs => h s (List.mem_cons_of_mem none hs))
  | some s2 :: rest, h => by
    show (if s2 = "" then jsOrChain rest else some s2) = some s2
    rw [if_neg (h s2 (List.mem_cons_self (some s2) rest))]

theorem jsOrChain_mem : ∀ {l : List (Option String)} {s : String},
    jsOrChain l = some s → some s ∈ l
  | [], s, h => by simp [jsOrChain] at h
  | none :: rest, s, h => by
    have h2 : jsOrChain rest = some s := h
    exact List.mem_cons_of_mem none (jsOrChain_mem h2)
  | some s2 :: rest, s, h => by
    by_cases h2 : s2 = ""
    · have h3 : jsOrChain rest = some s := by
        have he : jsOrChain (some s2 :: rest) = if s2 = "" then jsOrChain rest else some s2 := rfl
        rw [he, if_pos h2] at h
        exact h
      exact List.mem_cons_of_mem _ (jsOrChain_mem h3)
    · have he : jsOrChain (some s2 :: rest) = if s2 = "" then jsOrChain rest else some s2 := rfl
      rw [he, if_neg h2] at h
      injection h with h
      subst h
      exact List.mem_cons_self _ _

theorem invoiceSearch_not_truthy {j : JsonValue} (ht : isTruthyObject j = false) :
    jsOrChain ((invoiceCandidates j).map extractInvoiceCandidate) = none := by
  have hget : ∀ k, jGet j k = none := by
    intro k
    cases j with
    | obj fs => simp [isTruthyObject] at ht
    | arr xs => simp [isTruthyObject] at ht
    | null => rfl
    | bool b => rfl
    | num n => rfl
    | str s2 => rfl
  apply jsOrChain_all_none
  intro x hx
  obtain ⟨o, ho, he⟩ := List.mem_map.mp hx
  subst he
  rw [invoiceCandidates] at ho
  simp only [hget, jGetO, Option.bind, List.mem_cons, List.not_mem_nil, or_false] at ho
  have hcase : o = some j ∨ o = none := by tauto
  rcases hcase with rfl | rfl
  · rw [extractInvoiceCandidate, if_pos (by simp [ht])]
  · rfl

/-- C6 counterexample: the claim fails as stated.  For the body
`{"invoice": "", "payreq": "x"}` the claim's search (first candidate
yielding a non-empty string under any alias) selects `"x"` via `payreq`,
but the code's `??` chain selects the present-but-empty `invoice` value,
rejects it, and abandons the candidate — the parse yields no challenge. -/
theorem parseJsonChallenge_alias_order_cex :
    specC6InvoiceOrig (JsonValue.obj [("invoice", JsonValue.str ""), ("payreq", JsonValue.str "x")]) =
      some "x" ∧
    parseJsonChallengeVal (JsonValue.obj [("invoice", JsonValue.str ""), ("payreq", JsonValue.str "x")]) =
      none :=
  ⟨rfl, rfl⟩

/-- C6 (amended): the candidate objects are checked exactly in the listed
order; within one candidate the first *present, non-nullish* alias value is
selected (in the listed alias order) and later aliases are not consulted;
the candidate supplies the invoice only if that value is a string that is
non-blank after trimming, otherwise the search moves to the next candidate. -/
theorem parseJsonChallenge_invoice_search (j : JsonValue) :
    (parseJsonChallengeVal j).map L402Challenge.invoice = specC6InvoiceAmended j := by
  have hrhs : specC6InvoiceAmended j =
      jsOrChain ((invoiceCandidates j).map extractInvoiceCandidate) := by
    rw [specC6InvoiceAmended]
    have h1 : (specC6Candidates j).map specC6CandidateAmended =
        (invoiceCandidates j).map extractInvoiceCandidate := by
      rw [show specC6Candidates j = invoiceCandidates j from rfl]
      exact List.map_congr_left (fun o _ => (extractInvoiceCandidate_eq_spec o).symm)
    rw [h1, ← jsOrChain_eq_firstHit (fun s hs => by
      obtain ⟨o, ho, he⟩ := List.mem_map.mp hs
      exact (extractInvoiceCandidate_ne_empty he).2)]
  rw [hrhs, parseJsonChallengeVal]
  by_cases ht : isTruthyObject j = true
  · rw [if_neg (by simp [ht])]
    cases hi : jsOrChain ((invoiceCandidates j).map extractInvoiceCandidate) with
    | none => rfl
    | some inv =>
      have hne : jsTrimStr inv ≠ "" := by
        obtain ⟨o, ho, he⟩ := List.mem_map.mp (jsOrChain_mem hi)
        exact (extractInvoiceCandidate_ne_empty he).1
      show Option.map L402Challenge.invoice
          (if jsTrimStr inv = "" then none
           else some { invoice := inv,
                       proofHeader := jsOrChain ((proofHintCandidates j).map extractProofHeaderHint),
                       meta := (metaObjCand (jGet j "meta")).orElse
                         (fun _ => metaObjCand (jGetO (jGet j "l402") "meta")) }) = some inv
      rw [if_neg hne]
      rfl
  · have ht2 : isTruthyObject j = false := by simpa using ht
    rw [if_pos (by simp [ht2]), invoiceSearch_not_truthy ht2]
    rfl


/-! Support lemmas for the well-formed header-challenge theorem (claim C2). -/

theorem findIdx?_append_first {p : Char → Bool} : ∀ {l r : List Char} {c : Char},
    (∀ d ∈ l, p d = false) → p c = true →
    ∀ i, List.findIdx? p (l ++ c :: r) i = some (i + l.length)
  | [], r, c, _, hc, i => by
    rw [List.nil_append, List.findIdx?_cons, if_pos hc]
    simp
  | a :: l, r, c, hl, hc, i => by
    rw [List.cons_append, List.findIdx?_cons,
      if_neg (by simp [hl a (List.mem_cons_self a l)]),
      findIdx?_append_first (fun d hd => hl d (List.mem_cons_of_mem a hd)) hc (i + 1)]
    simp only [List.length_cons, Option.some.injEq]
    omega

theorem lookupParam_singleton_ne {aLow vb k : String} (h : k ≠ aLow) :
    lookupParam [(aLow, vb)] k = none := by
  rw [lookupParam, List.lookup_cons]
  have hb : (k == aLow) = false := by simpa using h
  rw [hb]
  rfl

theorem lookupParam_singleton_eq (aLow vb : String) :
    lookupParam [(aLow, vb)] aLow = some vb := by
  rw [lookupParam, List.lookup_cons]
  have hb : (aLow == aLow) = true := by simp
  rw [hb]

theorem jsOrChain_map_lookup_single : ∀ (aliases : List String) (aLow vb : String),
    vb ≠ "" → aLow ∈ aliases →
    jsOrChain (aliases.map (lookupParam [(aLow, vb)])) = some vb
  | [], _, _, _, hmem => by simp at hmem
  | a :: rest, aLow, vb, hvb, hmem => by
    rw [List.map_cons]
    by_cases hA : a = aLow
    · subst hA
      rw [lookupParam_singleton_eq]
      show (if vb = "" then jsOrChain (rest.map (lookupParam [(a, vb)])) else some vb) = some vb
      rw [if_neg hvb]
    · rw [lookupParam_singleton_ne (fun e => hA e)]
      show jsOrChain (rest.map (lookupParam [(aLow, vb)])) = some vb
      have hmem2 : aLow ∈ rest := by
        rcases List.mem_cons.mp hmem with h | h
        · exact absurd h.symm hA
        · exact h
      exact jsOrChain_map_lookup_single rest aLow vb hvb hmem2

theorem encodeHeaderChallenge_concat (scheme aname b : List Char) :
    encodeHeaderChallenge scheme aname b =
      (scheme ++ ' ' :: (aname ++ '=' :: '"' :: b)) ++ ['"'] := by
  simp [encodeHeaderChallenge]


/-- C2 counterexample: the claim fails as stated.  For the well-formed
header `L402 invoice="a\"b"` the parser returns the invoice `a\"b` with the
backslash escape left verbatim, whereas the claim demands the unescaped
value `a"b`. -/
theorem parseWwwAuthenticate_unescape_cex :
    (parseWwwAuthenticateL402 (some "L402 invoice=\"a\\\"b\"")).map L402Challenge.invoice =
      some "a\\\"b" ∧
    specUnescape "a\\\"b" = "a\"b" ∧ ("a\\\"b" : String) ≠ "a\"b" := by
  refine ⟨by decide, by decide, by decide⟩

/-- C2 (amended): for every well-formed single-challenge header
`SCHEME alias="body"` — scheme a whitespace-free token lowercasing to
`l402` or `lsat`, alias any recognized invoice parameter name (matched
case-insensitively), body a well-formed quoted-string body that is non-blank,
and no spurious challenge-split point inside — parsing returns a challenge
whose invoice is the quoted value with the surrounding double quotes removed
and backslash escape sequences left intact (not resolved), with the default
`authorization` proof-header hint and empty metadata. -/
theorem parseWwwAuthenticate_quoted_invoice (scheme aname b : List Char)
    (hs : jsToLowerL scheme = "l402".toList ∨ jsToLowerL scheme = "lsat".toList)
    (hstok : ∀ c ∈ scheme, isJsSpace c = false)
    (ha : (⟨jsToLowerL aname⟩ : String) ∈ headerInvoiceAliases)
    (hakey : ∀ c ∈ aname, isKeyChar c = true)
    (hb : quotedBodyOk b = true)
    (hnb : jsTrimL b ≠ [])
    (hsplit : splitAuthHeader (encodeHeaderChallenge scheme aname b) =
      [encodeHeaderChallenge scheme aname b]) :
    parseWwwAuthenticateL402 (some ⟨encodeHeaderChallenge scheme aname b⟩) =
      some { invoice := ⟨b⟩, proofHeader := some "authorization",
             meta := some (JsonValue.obj []) } := by
  have len4 : scheme.length = 4 := by
    rcases hs with h | h <;>
      · have h2 := congrArg List.length h
        simpa [jsToLowerL] using h2
  obtain ⟨s0, srest, rfl⟩ : ∃ s0 srest, scheme = s0 :: srest := by
    cases scheme with
    | nil => simp at len4
    | cons x xs => exact ⟨x, xs, rfl⟩
  have hanne : aname ≠ [] := by
    intro e
    rw [e] at ha
    revert ha
    decide
  obtain ⟨a0, arest, rfl⟩ : ∃ a0 arest, aname = a0 :: arest := by
    cases aname with
    | nil => exact absurd rfl hanne
    | cons x xs => exact ⟨x, xs, rfl⟩
  have hb_ne : b ≠ [] := by
    intro e
    rw [e] at hnb
    exact hnb rfl
  have hvb : (⟨b⟩ : String) ≠ "" := mkStr_ne_empty hb_ne
  have haws : isJsSpace a0 = false :=
    keyChar_not_space (hakey a0 (List.mem_cons_self _ _))
  have hacomma : a0 ≠ ',' := keyChar_ne_comma (hakey a0 (List.mem_cons_self _ _))
  set enc := encodeHeaderChallenge (s0 :: srest) (a0 :: arest) b with henc
  have henc_cons : enc = s0 :: (srest ++ ' ' :: (a0 :: (arest ++ '=' :: '"' :: (b ++ ['"'])))) := by
    rw [henc, encodeHeaderChallenge]
    simp
  have henc_ne : enc ≠ [] := by
    rw [henc_cons]
    simp
  have htake : enc.take 4 = s0 :: srest := by
    rw [henc, encodeHeaderChallenge, ← len4, List.take_left]
  have hdrop : enc.drop 4 = ' ' :: (a0 :: (arest ++ '=' :: '"' :: (b ++ ['"']))) := by
    rw [henc, encodeHeaderChallenge, ← len4, List.drop_left]
    simp
  have hr1 : (enc.drop 4).dropWhile isJsSpace =
      a0 :: (arest ++ '=' :: '"' :: (b ++ ['"'])) := by
    rw [hdrop, List.dropWhile_cons, if_pos (by decide)]
    exact dropWhile_head_neg haws
  have hstart : (startsWithCI enc "l402".toList || startsWithCI enc "lsat".toList) = true := by
    rcases hs with h | h
    · have h1 : startsWithCI enc "l402".toList = true := by
        simp only [startsWithCI, decide_eq_true_eq]
        show jsToLowerL (enc.take 4) = "l402".toList
        rw [htake, h]
      rw [h1, Bool.true_or]
    · have h1 : startsWithCI enc "lsat".toList = true := by
        simp only [startsWithCI, decide_eq_true_eq]
        show jsToLowerL (enc.take 4) = "lsat".toList
        rw [htake, h]
      rw [h1, Bool.or_true]
  have hcomma : commaSchemeSplit enc = none := by
    simp only [commaSchemeSplit]
    rw [if_pos hstart, hr1]
    rw [if_neg (by
      intro hcontr
      injection hcontr with hcontr
      exact hacomma hcontr)]
  have hidx : enc.findIdx? (fun c => c = ' ') = some 4 := by
    rw [henc, encodeHeaderChallenge]
    have hl : ∀ d ∈ (s0 :: srest), decide (d = ' ') = false := by
      intro d hd
      have hws := hstok d hd
      simp only [decide_eq_false_iff_not]
      intro e
      subst e
      exact absurd hws (by decide)
    have h2 := findIdx?_append_first (p := fun c => decide (c = ' '))
      (r := a0 :: arest ++ '=' :: '"' :: (b ++ ['"'])) (c := ' ')
      hl (by decide) 0
    simpa [len4] using h2
  have hstrip : stripTrailingNonAlnum (jsToLowerL (s0 :: srest)) = jsToLowerL (s0 :: srest) := by
    rcases hs with h | h <;> rw [h] <;> decide
  have hdrop5 : enc.drop 5 = a0 :: (arest ++ '=' :: '"' :: (b ++ ['"'])) := by
    have h5 : enc.drop 5 = (enc.drop 4).drop 1 := by
      rw [List.drop_drop]
    rw [h5, hdrop]
    rfl
  have hRlast : (a0 :: (arest ++ '=' :: '"' :: (b ++ ['"']))).getLast? = some '"' := by
    rw [show a0 :: (arest ++ '=' :: '"' :: (b ++ ['"'])) =
      (a0 :: (arest ++ '=' :: '"' :: b)) ++ ['"'] from by simp]
    exact List.getLast?_concat _
  have htrimR : jsTrimL (a0 :: (arest ++ '=' :: '"' :: (b ++ ['"']))) =
      a0 :: (arest ++ '=' :: '"' :: (b ++ ['"'])) := by
    apply jsTrimL_eq_self
    · intro c hc
      injection hc with hc
      subst hc
      exact haws
    · intro c hc
      rw [hRlast] at hc
      injection hc with hc
      subst hc
      decide
  have hstripR : stripLeadingCommaWs (a0 :: (arest ++ '=' :: '"' :: (b ++ ['"']))) =
      a0 :: (arest ++ '=' :: '"' :: (b ++ ['"'])) := by
    rw [stripLeadingCommaWs, if_neg (by
      intro hcontr
      injection hcontr with hcontr
      exact hacomma hcontr)]
  have hssr : segmentSchemeRest enc =
      (jsToLowerL (s0 :: srest), a0 :: (arest ++ '=' :: '"' :: (b ++ ['"']))) := by
    rw [segmentSchemeRest, hcomma, hidx]
    show (stripTrailingNonAlnum (jsToLowerL (jsTrimL (enc.take 4))),
      stripLeadingCommaWs (jsTrimL (enc.drop 5))) = _
    rw [htake, jsTrimL_all hstok, hstrip, hdrop5, htrimR, hstripR]
  have hkv : matchKeyValue ((a0 :: arest) ++ '=' :: '"' :: (b ++ ['"'])) =
      some (a0 :: arest, '"' :: (b ++ ['"']), []) :=
    matchKeyValue_encoded (by simp) hakey
      (fun c hc => by
        injection hc with hc
        subst hc
        decide)
      (matchValue_quoted hb)
  have hkey_ne : (processMatch (a0 :: arest, '"' :: (b ++ ['"']))).1 ≠ "" := by
    rw [processMatch_quoted hakey]
    exact mkStr_ne_empty (by simp [jsToLowerL])
  have hparams : parseAuthParamsL (a0 :: (arest ++ '=' :: '"' :: (b ++ ['"']))) =
      [((⟨jsToLowerL (a0 :: arest)⟩ : String), (⟨b⟩ : String))] := by
    have h1 := parseAuthParamsL_single hkv hkey_ne
    rw [processMatch_quoted hakey] at h1
    exact h1
  have hamem := ha
  simp only [headerInvoiceAliases, List.mem_cons, List.mem_singleton,
    List.not_mem_nil, or_false] at hamem
  have hmac : ("macaroon" : String) ≠ ⟨jsToLowerL (a0 :: arest)⟩ := by
    rcases hamem with h | h | h | h | h | h | h <;> rw [h] <;> decide
  have hproof_ne : ∀ a ∈ headerProofAliases, a ≠ (⟨jsToLowerL (a0 :: arest)⟩ : String) := by
    intro a hpa
    fin_cases hpa <;> (rcases hamem with h | h | h | h | h | h | h <;> rw [h] <;> decide)
  have hph : jsOrChain (headerProofAliases.map
      (lookupParam [((⟨jsToLowerL (a0 :: arest)⟩ : String), (⟨b⟩ : String))])) = none := by
    apply jsOrChain_all_none
    intro x hx
    obtain ⟨a, hpa, he⟩ := List.mem_map.mp hx
    rw [← he]
    exact lookupParam_singleton_ne (hproof_ne a hpa)
  have htrimb : jsTrimStr (⟨b⟩ : String) ≠ "" := mkStr_ne_empty hnb
  have hseg : segmentChallenge enc =
      some { invoice := ⟨b⟩, proofHeader := some "authorization",
             meta := some (JsonValue.obj []) } := by
    simp only [segmentChallenge, hssr]
    show schemeParamsChallenge (jsToLowerL (s0 :: srest))
      (a0 :: (arest ++ '=' :: '"' :: (b ++ ['"']))) =
      some { invoice := ⟨b⟩, proofHeader := some "authorization",
             meta := some (JsonValue.obj []) }
    simp only [schemeParamsChallenge]
    rw [if_pos hs, hparams,
      jsOrChain_map_lookup_single headerInvoiceAliases _ _ hvb ha,
      hph, lookupParam_singleton_ne hmac]
    show (if jsTrimStr (⟨b⟩ : String) = "" then (none : Option L402Challenge)
      else some { invoice := (⟨b⟩ : String), proofHeader := some "authorization",
                  meta := some (JsonValue.obj []) }) =
      some { invoice := (⟨b⟩ : String), proofHeader := some "authorization",
             meta := some (JsonValue.obj []) }
    rw [if_neg htrimb]
  have htrimenc : jsTrimL enc = enc := by
    apply jsTrimL_eq_self
    · intro c hc
      rw [henc_cons] at hc
      injection hc with hc
      subst hc
      exact hstok s0 (List.mem_cons_self _ _)
    · intro c hc
      rw [henc, encodeHeaderChallenge_concat, List.getLast?_concat] at hc
      injection hc with hc
      subst hc
      decide
  rw [parseWwwAuthenticateL402]
  rw [if_neg (mkStr_ne_empty henc_ne)]
  rw [headerSegments]
  have hsplit2 : splitAuthHeader (String.toList (⟨enc⟩ : String)) = [enc] := hsplit
  rw [hsplit2, List.map_cons, List.map_nil, htrimenc, List.filter_cons,
    if_pos (by simp [henc_ne]), List.filter_nil, List.findSome?_cons, hseg]


/-- Witness for the amended C2 at scheme `LSat` (mixed case), alias
`Invoice` (mixed case), and quoted body `ln\"x` (containing an escape):
the invoice keeps the escape verbatim. -/
theorem parseWwwAuthenticate_quoted_invoice_witness :
    (jsToLowerL "LSat".toList = "l402".toList ∨ jsToLowerL "LSat".toList = "lsat".toList) ∧
    quotedBodyOk "ln\\\"x".toList = true ∧ jsTrimL "ln\\\"x".toList ≠ [] ∧
    parseWwwAuthenticateL402
        (some ⟨encodeHeaderChallenge "LSat".toList "Invoice".toList "ln\\\"x".toList⟩) =
      some { invoice := ⟨"ln\\\"x".toList⟩, proofHeader := some "authorization",
             meta := some (JsonValue.obj []) } :=
  ⟨by decide, by decide, by decide,
   parseWwwAuthenticate_quoted_invoice "LSat".toList "Invoice".toList "ln\\\"x".toList
     (by decide) (by decide) (by decide) (by decide) (by decide) (by decide) (by decide)⟩


end L402
